import Mathlib

/-!
Shallow embedding of `src/Assignment_2_maintenance.py` (k-out-of-n repairable
system: birth-death stationary distribution, availability, total cost, and the
greedy (n, s) optimizer).

Python floats are modelled as exact rationals (ℚ).  A Python `ZeroDivisionError`
(float division by zero raises in Python) is modelled by `Option`: a function
that would raise returns `none`.  `float('inf')` values flowing through the
optimizer are modelled by `Option ℚ` with `none` standing for infinity.
-/

namespace Maintenance

/-- Birth rate used at loop index `i` (lines 11 and 28 of the source):
`birth_rate = min(n - i, s) * lam`. -/
def birthRate (n s : ℕ) (lam : ℚ) (i : ℕ) : ℚ :=
  ((min (n - i) s : ℕ) : ℚ) * lam

/-- Warm-standby death rate used at loop index `i` (line 12):
`death_rate = (i+1) * mu`. -/
def warmDeathRate (mu : ℚ) (i : ℕ) : ℚ := ((i : ℚ) + 1) * mu

/-- Cold-standby death rate used at loop index `i` (line 30):
`death_rate = i * mu if i < k else k * mu`. -/
def coldDeathRate (k : ℕ) (mu : ℚ) (i : ℕ) : ℚ :=
  if i < k then (i : ℚ) * mu else (k : ℚ) * mu

/-- Value of `pi_unnorm[i]` produced by the loop `for i in range(n):
pi_unnorm[i+1] = pi_unnorm[i] * (birth_rate / death_rate)` (lines 10-13 /
27-31).  `none` models the `ZeroDivisionError` raised when a death rate is 0. -/
def piUnnorm (birth death : ℕ → ℚ) : ℕ → Option ℚ
  | 0 => some 1
  | i + 1 =>
    (piUnnorm birth death i).bind fun p =>
      if death i = 0 then none else some (p * (birth i / death i))

/-- The list `pi_unnorm = [pi_unnorm[0], ..., pi_unnorm[n]]` after the loop. -/
def piUnnormList (birth death : ℕ → ℚ) : ℕ → Option (List ℚ)
  | 0 => (piUnnorm birth death 0).map fun v => [v]
  | n + 1 =>
    (piUnnormList birth death n).bind fun l =>
      (piUnnorm birth death (n + 1)).map fun v => l ++ [v]

/-- Shared body of `k_out_of_n_availability_warm` / `_cold` (lines 6-21 and
25-37): build `pi_unnorm`, normalize by its sum (`pi = [x / norm_const for x
in pi_unnorm]`), and return `(pi, sum(pi[i] for i in range(k, n+1)))`. -/
def availabilityCore (n k : ℕ) (birth death : ℕ → ℚ) : Option (List ℚ × ℚ) :=
  (piUnnormList birth death n).bind fun unnorm =>
    let c := unnorm.sum
    if c = 0 then none
    else
      let pi := unnorm.map fun x => x / c
      some (pi, ((List.range' k (n + 1 - k)).map fun i => pi.getD i 0).sum)

/-- Source lines 4-21. -/
def k_out_of_n_availability_warm (n k s : ℕ) (lam mu : ℚ) :
    Option (List ℚ × ℚ) :=
  availabilityCore n k (birthRate n s lam) (warmDeathRate mu)

/-- Source lines 23-37. -/
def k_out_of_n_availability_cold (n k s : ℕ) (lam mu : ℚ) :
    Option (List ℚ × ℚ) :=
  availabilityCore n k (birthRate n s lam) (coldDeathRate k mu)

/-- Source lines 39-45: dispatch on `warm_standby`, then
`(n * component_cost) + (s * repairman_cost) + ((1-availability) *
downtime_cost)`. -/
def total_cost (n k s : ℕ) (lam mu : ℚ) (warm_standby : Bool)
    (component_cost repairman_cost downtime_cost : ℚ) : Option ℚ :=
  ((if warm_standby then k_out_of_n_availability_warm n k s lam mu
    else k_out_of_n_availability_cold n k s lam mu).map fun pa =>
    (n : ℚ) * component_cost + (s : ℚ) * repairman_cost +
      (1 - pa.2) * downtime_cost)

/-- Python comparison `cost < current_best_cost` where `current_best_cost`
may be `float('inf')` (modelled as `none`). -/
def ltInf (c : ℚ) (best : Option ℚ) : Bool :=
  match best with
  | none => true
  | some b => decide (c < b)

/-- Python comparison `current_best_cost < min_cost` where either side may be
`float('inf')` (`none`); `inf < inf` is `False` in Python. -/
def ltInfOpt : Option ℚ → Option ℚ → Bool
  | none, _ => false
  | some _, none => true
  | some c, some m => decide (c < m)

/-- Body of the inner `for s in range(1, n)` loop (lines 57-61): update
`(current_best_cost, current_best_s)` with the cost found for `s`. -/
def innerStep (best : Option ℚ × Option ℕ) (s : ℕ) (cost : ℚ) :
    Option ℚ × Option ℕ :=
  if ltInf cost best.1 then (some cost, some s) else best

/-- The inner loop of `optimize_system` (lines 55-61): fold over
`s in range(1, n)` starting from `(inf, None)`; a `ZeroDivisionError` inside
`total_cost` aborts the whole computation (`none`). -/
def innerSearch (n k : ℕ) (lam mu : ℚ) (w : Bool) (cc rc dc : ℚ) :
    Option (Option ℚ × Option ℕ) :=
  (List.range' 1 (n - 1)).foldlM
    (fun best s => (total_cost n k s lam mu w cc rc dc).map (innerStep best s))
    (none, none)

/-- The outer `while improvement and n <= 1000` loop of `optimize_system`
(lines 53-69), state `(best_n, best_s, min_cost)` with `none` for
`None`/`float('inf')`.  The loop increments `n` by 1 each improving
iteration, so with the call pattern used below (`fuel + n` constant and at
least 1002) the fuel can run out only when `n > 1000`, where returning the
state matches the Python loop guard. -/
def optimizeLoop (k : ℕ) (lam mu : ℚ) (w : Bool) (cc rc dc : ℚ) :
    ℕ → ℕ → Option ℕ × Option ℕ × Option ℚ →
    Option (Option ℕ × Option ℕ × Option ℚ)
  | 0, _, st => some st
  | fuel + 1, n, st =>
    if n ≤ 1000 then
      (innerSearch n k lam mu w cc rc dc).bind fun cur =>
        if ltInfOpt cur.1 st.2.2 then
          optimizeLoop k lam mu w cc rc dc fuel (n + 1) (some n, cur.2, cur.1)
        else some st
    else some st

/-- Source lines 47-70: start at `n = k` with
`(best_n, best_s, min_cost) = (None, None, inf)`. -/
def optimize_system (k : ℕ) (lam mu : ℚ) (w : Bool) (cc rc dc : ℚ) :
    Option (Option ℕ × Option ℕ × Option ℚ) :=
  optimizeLoop k lam mu w cc rc dc 1002 k (none, none, none)

/-- Death-rate value printed on the edge from state `j` to `j-1` by
`visualize_birth_death` (lines 86-96): warm `j*mu`; cold `j*mu` if `j <= k`
else `k*mu`.  (Note it is indexed by the state `j`, unlike the availability
functions' loop index.) -/
def vizDeathRate (k : ℕ) (mu : ℚ) (warm : Bool) (j : ℕ) : ℚ :=
  if warm then (j : ℚ) * mu
  else if j ≤ k then (j : ℚ) * mu else (k : ℚ) * mu

/-- Ghost instrumentation: the `s` values for which the inner loop actually
evaluates `total_cost` before either finishing or crashing (Python evaluates
left to right and a `ZeroDivisionError` aborts after the offending call). -/
def evalsUntilCrash (f : ℕ → Option ℚ) : List ℕ → List ℕ
  | [] => []
  | s :: rest =>
    match f s with
    | some _ => s :: evalsUntilCrash f rest
    | none => [s]

/-- Ghost instrumentation: `s` values evaluated by the inner loop at a given
`n`. -/
def innerEvals (n k : ℕ) (lam mu : ℚ) (w : Bool) (cc rc dc : ℚ) : List ℕ :=
  evalsUntilCrash (fun s => total_cost n k s lam mu w cc rc dc)
    (List.range' 1 (n - 1))

/-- Ghost instrumentation mirroring `optimizeLoop`: the `(n, s)` pairs at
which `total_cost` is evaluated during the whole search.  Only the `min_cost`
component of the state influences control flow, so it is the only state
carried. -/
def optimizeEvalsLoop (k : ℕ) (lam mu : ℚ) (w : Bool) (cc rc dc : ℚ) :
    ℕ → ℕ → Option ℚ → List (ℕ × ℕ)
  | 0, _, _ => []
  | fuel + 1, n, mc =>
    if n ≤ 1000 then
      ((innerEvals n k lam mu w cc rc dc).map fun s => (n, s)) ++
        (match innerSearch n k lam mu w cc rc dc with
         | none => []
         | some cur =>
           if ltInfOpt cur.1 mc then
             optimizeEvalsLoop k lam mu w cc rc dc fuel (n + 1) cur.1
           else [])
    else []

/-- All `(n, s)` configurations evaluated by `optimize_system`. -/
def optimizeEvals (k : ℕ) (lam mu : ℚ) (w : Bool) (cc rc dc : ℚ) :
    List (ℕ × ℕ) :=
  optimizeEvalsLoop k lam mu w cc rc dc 1002 k none

/-! Derived (proof-side) definitions: the crash-free value of the recurrence,
and closed forms for the warm-standby quantities. -/

/-- The birth-death detailed-balance recurrence, ignoring division by zero
(total counterpart of `piUnnorm`). -/
def piVal (birth death : ℕ → ℚ) : ℕ → ℚ
  | 0 => 1
  | i + 1 => piVal birth death i * (birth i / death i)

/-- Warm-standby unnormalized stationary value at state `i`. -/
def warmU (n s : ℕ) (lam mu : ℚ) (i : ℕ) : ℚ :=
  piVal (birthRate n s lam) (warmDeathRate mu) i

/-- Warm-standby normalization constant (sum over states `0..n`). -/
def warmS (n s : ℕ) (lam mu : ℚ) : ℚ :=
  ∑ i ∈ Finset.range (n + 1), warmU n s lam mu i

/-- Warm-standby unnormalized tail mass over states `k..n`. -/
def warmT (n k s : ℕ) (lam mu : ℚ) : ℚ :=
  ∑ i ∈ Finset.Icc k n, warmU n s lam mu i

/-- Warm-standby availability as returned by the source (closed form). -/
def warmAvailVal (n k s : ℕ) (lam mu : ℚ) : ℚ :=
  warmT n k s lam mu / warmS n s lam mu

/-- Warm-standby total cost (closed form of `total_cost` with
`warm_standby = True`). -/
def warmCost (n k s : ℕ) (lam mu cc rc dc : ℚ) : ℚ :=
  (n : ℚ) * cc + (s : ℚ) * rc + (1 - warmAvailVal n k s lam mu) * dc

/-- Closed form of the inner loop of `optimize_system` in warm mode (the
crash-free costs make the monadic fold a plain fold). -/
def innerFoldWarm (n k : ℕ) (lam mu cc rc dc : ℚ) : Option ℚ × Option ℕ :=
  (List.range' 1 (n - 1)).foldl
    (fun b s => innerStep b s (warmCost n k s lam mu cc rc dc)) (none, none)

/-- Order on costs where `none` stands for `float('inf')`. -/
def leInf : Option ℚ → Option ℚ → Prop
  | _, none => True
  | none, some _ => False
  | some a, some b => a ≤ b

/-! Infrastructure lemmas. -/

lemma piUnnorm_eq_piVal (birth death : ℕ → ℚ) (i : ℕ)
    (h : ∀ j, j < i → death j ≠ 0) :
    piUnnorm birth death i = some (piVal birth death i) := by
  induction i with
  | zero => rfl
  | succ i ih =>
    rw [piUnnorm, ih (fun j hj => h j (hj.trans i.lt_succ_self))]
    simp [piVal, h i i.lt_succ_self]

lemma piUnnormList_eq (birth death : ℕ → ℚ) (n : ℕ)
    (h : ∀ j, j < n → death j ≠ 0) :
    piUnnormList birth death n =
      some ((List.range (n + 1)).map (piVal birth death)) := by
  induction n with
  | zero => simp [piUnnormList, piUnnorm, piVal, List.range_succ]
  | succ n ih =>
    rw [piUnnormList, ih (fun j hj => h j (hj.trans n.lt_succ_self)),
      piUnnorm_eq_piVal birth death (n + 1) h]
    simp [List.range_succ]

lemma piVal_nonneg (birth death : ℕ → ℚ) (hb : ∀ j, 0 ≤ birth j)
    (hd : ∀ j, 0 < death j) (i : ℕ) : 0 ≤ piVal birth death i := by
  induction i with
  | zero => norm_num [piVal]
  | succ i ih =>
    rw [piVal]
    exact mul_nonneg ih (div_nonneg (hb i) (hd i).le)

lemma list_range_map_sum (f : ℕ → ℚ) (n : ℕ) :
    ((List.range n).map f).sum = ∑ i ∈ Finset.range n, f i := by
  induction n with
  | zero => simp
  | succ n ih => rw [List.range_succ]; simp [ih, Finset.sum_range_succ]

lemma list_range'_map_sum (f : ℕ → ℚ) (m : ℕ) :
    ∀ a : ℕ, ((List.range' a m).map f).sum = ∑ i ∈ Finset.Ico a (a + m), f i := by
  induction m with
  | zero => simp
  | succ m ih =>
    intro a
    rw [List.range'_succ]
    have hsplit : a + (m + 1) = (a + 1) + m := by omega
    simp only [List.map_cons, List.sum_cons, ih (a + 1), hsplit]
    rw [show (∑ i ∈ Finset.Ico a (a + 1 + m), f i)
        = f a + ∑ i ∈ Finset.Ico (a + 1) (a + 1 + m), f i from
      Finset.sum_eq_sum_Ico_succ_bot (by omega) f]

lemma warmDeathRate_pos (mu : ℚ) (hmu : 0 < mu) (i : ℕ) :
    0 < warmDeathRate mu i := by
  have hi : (0 : ℚ) < (i : ℚ) + 1 := by positivity
  exact mul_pos hi hmu

lemma birthRate_nonneg (n s : ℕ) (lam : ℚ) (hlam : 0 ≤ lam) (i : ℕ) :
    0 ≤ birthRate n s lam i :=
  mul_nonneg (by positivity) hlam

lemma warmU_nonneg (n s : ℕ) (lam mu : ℚ) (hlam : 0 ≤ lam) (hmu : 0 < mu)
    (i : ℕ) : 0 ≤ warmU n s lam mu i :=
  piVal_nonneg _ _ (birthRate_nonneg n s lam hlam) (warmDeathRate_pos mu hmu) i

lemma warmU_zero (n s : ℕ) (lam mu : ℚ) : warmU n s lam mu 0 = 1 := rfl

lemma warmS_pos (n s : ℕ) (lam mu : ℚ) (hlam : 0 ≤ lam) (hmu : 0 < mu) :
    0 < warmS n s lam mu := by
  have h1 : warmU n s lam mu 0 ≤ warmS n s lam mu :=
    Finset.single_le_sum (fun i _ => warmU_nonneg n s lam mu hlam hmu i)
      (Finset.mem_range.mpr (Nat.succ_pos n))
  rw [warmU_zero] at h1
  linarith

lemma warm_eq_raw (n k s : ℕ) (lam mu : ℚ) (hlam : 0 ≤ lam) (hmu : 0 < mu) :
    k_out_of_n_availability_warm n k s lam mu =
      some ((List.range (n + 1)).map fun i => warmU n s lam mu i / warmS n s lam mu,
        ((List.range' k (n + 1 - k)).map fun i =>
          (((List.range (n + 1)).map fun j =>
            warmU n s lam mu j / warmS n s lam mu).getD i 0)).sum) := by
  unfold k_out_of_n_availability_warm availabilityCore
  rw [piUnnormList_eq _ _ n (fun j _ => (warmDeathRate_pos mu hmu j).ne')]
  have hsum : ((List.range (n + 1)).map
      (piVal (birthRate n s lam) (warmDeathRate mu))).sum = warmS n s lam mu := by
    rw [list_range_map_sum]; rfl
  have hmm : ((List.range (n + 1)).map
        (piVal (birthRate n s lam) (warmDeathRate mu))).map
        (fun x => x / warmS n s lam mu)
      = (List.range (n + 1)).map fun i => warmU n s lam mu i / warmS n s lam mu := by
    rw [List.map_map]; rfl
  simp only [Option.some_bind, hsum, hmm,
    if_neg (warmS_pos n s lam mu hlam hmu).ne']

lemma warm_getD (n s : ℕ) (lam mu : ℚ) (i : ℕ) (hi : i < n + 1) :
    ((List.range (n + 1)).map fun j =>
        warmU n s lam mu j / warmS n s lam mu).getD i 0
      = warmU n s lam mu i / warmS n s lam mu := by
  have hlen : i < ((List.range (n + 1)).map fun j =>
      warmU n s lam mu j / warmS n s lam mu).length := by
    simpa using hi
  rw [List.getD_eq_getElem _ _ hlen]
  simp

lemma warm_eq (n k s : ℕ) (lam mu : ℚ) (hlam : 0 ≤ lam) (hmu : 0 < mu)
    (hkn : k ≤ n) :
    k_out_of_n_availability_warm n k s lam mu =
      some ((List.range (n + 1)).map fun i => warmU n s lam mu i / warmS n s lam mu,
        warmAvailVal n k s lam mu) := by
  rw [warm_eq_raw n k s lam mu hlam hmu]
  have hmap : ((List.range' k (n + 1 - k)).map fun i =>
        (((List.range (n + 1)).map fun j =>
          warmU n s lam mu j / warmS n s lam mu).getD i 0))
      = (List.range' k (n + 1 - k)).map fun i =>
        warmU n s lam mu i / warmS n s lam mu := by
    apply List.map_congr_left
    intro i hi
    have hmem : k ≤ i ∧ i < k + (n + 1 - k) := List.mem_range'_1.mp hi
    exact warm_getD n s lam mu i (by omega)
  rw [hmap, list_range'_map_sum]
  have hik : k + (n + 1 - k) = n + 1 := by omega
  rw [hik, Nat.Ico_succ_right, ← Finset.sum_div]
  rfl

lemma coldDeathRate_zero (k : ℕ) (mu : ℚ) : coldDeathRate k mu 0 = 0 := by
  unfold coldDeathRate
  split <;> simp_all

lemma piUnnorm_cold_none (n k s : ℕ) (lam mu : ℚ) (i : ℕ) (hi : 1 ≤ i) :
    piUnnorm (birthRate n s lam) (coldDeathRate k mu) i = none := by
  induction i with
  | zero => omega
  | succ i ih =>
    rcases Nat.eq_zero_or_pos i with h0 | h1
    · subst h0
      rw [piUnnorm, piUnnorm]
      simp [coldDeathRate_zero]
    · rw [piUnnorm, ih h1]
      rfl

lemma cold_none (n k s : ℕ) (lam mu : ℚ) (hn : 1 ≤ n) :
    k_out_of_n_availability_cold n k s lam mu = none := by
  obtain ⟨m, rfl⟩ : ∃ m, n = m + 1 := ⟨n - 1, by omega⟩
  have hlist : piUnnormList (birthRate (m + 1) s lam) (coldDeathRate k mu)
      (m + 1) = none := by
    rw [piUnnormList, piUnnorm_cold_none (m + 1) k s lam mu (m + 1) (by omega)]
    cases piUnnormList (birthRate (m + 1) s lam) (coldDeathRate k mu) m <;> rfl
  unfold k_out_of_n_availability_cold availabilityCore
  rw [hlist]
  rfl

lemma total_cost_cold_none (n k s : ℕ) (lam mu cc rc dc : ℚ) (hn : 1 ≤ n) :
    total_cost n k s lam mu false cc rc dc = none := by
  have h : (if (false : Bool) then k_out_of_n_availability_warm n k s lam mu
      else k_out_of_n_availability_cold n k s lam mu)
      = k_out_of_n_availability_cold n k s lam mu := rfl
  unfold total_cost
  rw [h, cold_none n k s lam mu hn]
  rfl

lemma innerSearch_cold_none (n k : ℕ) (lam mu cc rc dc : ℚ) (hn : 2 ≤ n) :
    innerSearch n k lam mu false cc rc dc = none := by
  unfold innerSearch
  rw [show n - 1 = (n - 2) + 1 from by omega, List.range'_succ, List.foldlM_cons,
    total_cost_cold_none n k 1 lam mu cc rc dc (by omega)]
  rfl

lemma optimizeLoop_cold_none (k : ℕ) (lam mu cc rc dc : ℚ) (fuel n : ℕ)
    (st : Option ℕ × Option ℕ × Option ℚ) (hfuel : 1 ≤ fuel) (hn : 2 ≤ n)
    (h1000 : n ≤ 1000) :
    optimizeLoop k lam mu false cc rc dc fuel n st = none := by
  obtain ⟨f, rfl⟩ : ∃ f, fuel = f + 1 := ⟨fuel - 1, by omega⟩
  rw [optimizeLoop, if_pos h1000, innerSearch_cold_none n k lam mu cc rc dc hn]
  rfl

lemma warmS_split (n k s : ℕ) (lam mu : ℚ) (hkn : k ≤ n) :
    warmS n s lam mu
      = (∑ i ∈ Finset.range k, warmU n s lam mu i) + warmT n k s lam mu := by
  unfold warmS warmT
  rw [Finset.range_eq_Ico, ← Nat.Ico_succ_right]
  exact (Finset.sum_Ico_consecutive _ (Nat.zero_le k) (by omega)).symm

lemma warm_head_pos (n k s : ℕ) (lam mu : ℚ) (hlam : 0 ≤ lam) (hmu : 0 < mu)
    (hk : 1 ≤ k) : 0 < ∑ i ∈ Finset.range k, warmU n s lam mu i := by
  have h1 : warmU n s lam mu 0 ≤ ∑ i ∈ Finset.range k, warmU n s lam mu i :=
    Finset.single_le_sum (fun i _ => warmU_nonneg n s lam mu hlam hmu i)
      (Finset.mem_range.mpr (by omega))
  rw [warmU_zero] at h1
  linarith

lemma warmT_nonneg (n k s : ℕ) (lam mu : ℚ) (hlam : 0 ≤ lam) (hmu : 0 < mu) :
    0 ≤ warmT n k s lam mu :=
  Finset.sum_nonneg fun i _ => warmU_nonneg n s lam mu hlam hmu i

lemma warmAvailVal_lt_one (n k s : ℕ) (lam mu : ℚ) (hlam : 0 ≤ lam)
    (hmu : 0 < mu) (hk : 1 ≤ k) (hkn : k ≤ n) :
    warmAvailVal n k s lam mu < 1 := by
  unfold warmAvailVal
  rw [div_lt_one (warmS_pos n s lam mu hlam hmu)]
  rw [warmS_split n k s lam mu hkn]
  have := warm_head_pos n k s lam mu hlam hmu hk
  linarith

lemma total_cost_eq (n k s : ℕ) (lam mu cc rc dc : ℚ) (w : Bool) (pi : List ℚ)
    (a : ℚ)
    (h : (if w then k_out_of_n_availability_warm n k s lam mu
          else k_out_of_n_availability_cold n k s lam mu) = some (pi, a)) :
    total_cost n k s lam mu w cc rc dc =
      some ((n : ℚ) * cc + (s : ℚ) * rc + (1 - a) * dc) := by
  unfold total_cost
  rw [h]
  rfl

lemma piVal_mlr (b1 b2 death : ℕ → ℚ) (hb1 : ∀ j, 0 ≤ b1 j)
    (hb2 : ∀ j, 0 ≤ b2 j) (hb12 : ∀ j, b1 j ≤ b2 j) (hd : ∀ j, 0 < death j)
    (j i : ℕ) (hji : j ≤ i) :
    piVal b1 death i * piVal b2 death j
      ≤ piVal b2 death i * piVal b1 death j := by
  induction i, hji using Nat.le_induction with
  | base => rw [mul_comm]
  | succ i hji ih =>
    have h1 : piVal b1 death (i + 1)
        = piVal b1 death i * (b1 i / death i) := by rw [piVal]
    have h2 : piVal b2 death (i + 1)
        = piVal b2 death i * (b2 i / death i) := by rw [piVal]
    rw [h1, h2]
    have hq1 : 0 ≤ b1 i / death i := div_nonneg (hb1 i) (hd i).le
    have hq12 : b1 i / death i ≤ b2 i / death i := by
      rw [div_eq_mul_inv, div_eq_mul_inv]
      exact mul_le_mul_of_nonneg_right (hb12 i) (inv_nonneg.mpr (hd i).le)
    have hu2i : 0 ≤ piVal b2 death i := piVal_nonneg b2 death hb2 hd i
    have hu1j : 0 ≤ piVal b1 death j := piVal_nonneg b1 death hb1 hd j
    calc piVal b1 death i * (b1 i / death i) * piVal b2 death j
        = (b1 i / death i) * (piVal b1 death i * piVal b2 death j) := by ring
      _ ≤ (b1 i / death i) * (piVal b2 death i * piVal b1 death j) :=
          mul_le_mul_of_nonneg_left ih hq1
      _ ≤ (b2 i / death i) * (piVal b2 death i * piVal b1 death j) :=
          mul_le_mul_of_nonneg_right hq12 (mul_nonneg hu2i hu1j)
      _ = piVal b2 death i * (b2 i / death i) * piVal b1 death j := by ring

lemma birthRate_mono_s (n s1 s2 : ℕ) (lam : ℚ) (hlam : 0 ≤ lam) (hs : s1 ≤ s2)
    (i : ℕ) : birthRate n s1 lam i ≤ birthRate n s2 lam i := by
  unfold birthRate
  apply mul_le_mul_of_nonneg_right _ hlam
  exact_mod_cast min_le_min le_rfl hs

lemma warm_tail_ratio (n k s1 s2 : ℕ) (lam mu : ℚ) (hlam : 0 ≤ lam)
    (hmu : 0 < mu) (hs : s1 ≤ s2) :
    warmT n k s1 lam mu * (∑ j ∈ Finset.range k, warmU n s2 lam mu j)
      ≤ warmT n k s2 lam mu * (∑ j ∈ Finset.range k, warmU n s1 lam mu j) := by
  unfold warmT warmU
  rw [Finset.sum_mul_sum, Finset.sum_mul_sum]
  refine Finset.sum_le_sum fun i hi => Finset.sum_le_sum fun j hj => ?_
  have hji : j ≤ i :=
    ((Finset.mem_range.mp hj).trans_le (Finset.mem_Icc.mp hi).1).le
  exact piVal_mlr (birthRate n s1 lam) (birthRate n s2 lam) (warmDeathRate mu)
    (birthRate_nonneg n s1 lam hlam) (birthRate_nonneg n s2 lam hlam)
    (birthRate_mono_s n s1 s2 lam hlam hs) (warmDeathRate_pos mu hmu) j i hji

lemma warmAvail_mono_s (n k s1 s2 : ℕ) (lam mu : ℚ) (hk : 1 ≤ k) (hkn : k ≤ n)
    (hlam : 0 ≤ lam) (hmu : 0 < mu) (hs : s1 ≤ s2) :
    warmAvailVal n k s1 lam mu ≤ warmAvailVal n k s2 lam mu := by
  unfold warmAvailVal
  rw [div_le_div_iff₀ (warmS_pos n s1 lam mu hlam hmu)
    (warmS_pos n s2 lam mu hlam hmu)]
  rw [warmS_split n k s1 lam mu hkn, warmS_split n k s2 lam mu hkn]
  have key := warm_tail_ratio n k s1 s2 lam mu hlam hmu hs
  have hcomm : warmT n k s1 lam mu * warmT n k s2 lam mu
      = warmT n k s2 lam mu * warmT n k s1 lam mu := mul_comm _ _
  have e1 : warmT n k s1 lam mu
        * ((∑ i ∈ Finset.range k, warmU n s2 lam mu i) + warmT n k s2 lam mu)
      = warmT n k s1 lam mu * (∑ i ∈ Finset.range k, warmU n s2 lam mu i)
        + warmT n k s1 lam mu * warmT n k s2 lam mu := by ring
  have e2 : warmT n k s2 lam mu
        * ((∑ i ∈ Finset.range k, warmU n s1 lam mu i) + warmT n k s1 lam mu)
      = warmT n k s2 lam mu * (∑ i ∈ Finset.range k, warmU n s1 lam mu i)
        + warmT n k s2 lam mu * warmT n k s1 lam mu := by ring
  rw [e1, e2]
  linarith [key, hcomm]

/-! Claim theorems. -/

/-- C1: for every n ≥ 1, s ≥ 1 and positive lam, mu, whenever the
stationary-distribution computation returns, the returned vector is obtained
from the recurrence unnorm[0] = 1, unnorm[i+1] = unnorm[i] * birth_rate(i) /
death_rate(i+1) with birth_rate(i) = min(n-i, s)*lam in both policies,
death_rate = (i+1)*mu in warm standby and i*mu if i < k else k*mu (indexed by
the loop variable i) in cold standby, by dividing every entry by the sum of
all entries. -/
theorem C1_recurrence (n k s : ℕ) (lam mu : ℚ) (hn : 1 ≤ n) (hs : 1 ≤ s)
    (hlam : 0 < lam) (hmu : 0 < mu) (w : Bool) (pi : List ℚ) (a : ℚ)
    (h : (if w then k_out_of_n_availability_warm n k s lam mu
          else k_out_of_n_availability_cold n k s lam mu) = some (pi, a)) :
    ∃ unnorm : ℕ → ℚ, unnorm 0 = 1 ∧
      (∀ i, i < n → unnorm (i + 1) = unnorm i *
        ((((min (n - i) s : ℕ) : ℚ) * lam) /
          (if w then ((i : ℚ) + 1) * mu
           else if i < k then (i : ℚ) * mu else (k : ℚ) * mu))) ∧
      pi = ((List.range (n + 1)).map unnorm).map
        (fun x => x / ((List.range (n + 1)).map unnorm).sum) := by
  cases w with
  | false =>
    have h2 : k_out_of_n_availability_cold n k s lam mu = some (pi, a) := h
    rw [cold_none n k s lam mu hn] at h2
    exact absurd h2 (by simp)
  | true =>
    have h2 : k_out_of_n_availability_warm n k s lam mu = some (pi, a) := h
    rw [warm_eq_raw n k s lam mu hlam.le hmu] at h2
    have hpi : pi = (List.range (n + 1)).map
        fun i => warmU n s lam mu i / warmS n s lam mu :=
      (Prod.mk.injEq _ _ _ _ ▸ Option.some.inj h2).1.symm
    refine ⟨warmU n s lam mu, warmU_zero n s lam mu, ?_, ?_⟩
    · intro i _
      simp [warmU, piVal, birthRate, warmDeathRate]
    · have hsum : ((List.range (n + 1)).map (warmU n s lam mu)).sum
          = warmS n s lam mu := by
        rw [list_range_map_sum]; rfl
      rw [hpi, hsum, List.map_map]
      rfl

/-- C2 counterexample: for the valid cold-standby parameters n = 1, k = 1,
s = 1, lam = 1, mu = 1 the availability computation does not return any
stationary vector at all (it raises ZeroDivisionError), so in particular it
does not return 2 non-negative entries summing to 1. -/
theorem C2_counterexample :
    ¬ ∃ pi : List ℚ, ∃ a : ℚ,
      k_out_of_n_availability_cold 1 1 1 1 1 = some (pi, a) ∧
      pi.length = 1 + 1 ∧ (∀ x ∈ pi, 0 ≤ x) ∧ pi.sum = 1 := by
  rw [cold_none 1 1 1 1 1 le_rfl]
  simp

/-- C2 amended: for every valid ChainParameters the warm-standby computation
returns a StationaryVector, and whenever the computation of either standby
mode returns a StationaryVector, it has exactly n+1 entries, each non-negative,
summing to 1 (the cold mode never returns one). -/
theorem C2_amended (n k s : ℕ) (lam mu : ℚ) (hk : 1 ≤ k) (hkn : k ≤ n)
    (hs : 1 ≤ s) (hlam : 0 < lam) (hmu : 0 < mu) :
    (∃ pi a, k_out_of_n_availability_warm n k s lam mu = some (pi, a)) ∧
    (∀ w : Bool, ∀ pi : List ℚ, ∀ a : ℚ,
      (if w then k_out_of_n_availability_warm n k s lam mu
       else k_out_of_n_availability_cold n k s lam mu) = some (pi, a) →
      pi.length = n + 1 ∧ (∀ x ∈ pi, 0 ≤ x) ∧ pi.sum = 1) := by
  constructor
  · exact ⟨_, _, warm_eq n k s lam mu hlam.le hmu hkn⟩
  · intro w pi a h
    cases w with
    | false =>
      have h2 : k_out_of_n_availability_cold n k s lam mu = some (pi, a) := h
      rw [cold_none n k s lam mu (hk.trans hkn)] at h2
      exact absurd h2 (by simp)
    | true =>
      have h2 : k_out_of_n_availability_warm n k s lam mu = some (pi, a) := h
      rw [warm_eq n k s lam mu hlam.le hmu hkn] at h2
      have hpi : pi = (List.range (n + 1)).map
          fun i => warmU n s lam mu i / warmS n s lam mu :=
        (Prod.mk.injEq _ _ _ _ ▸ Option.some.inj h2).1.symm
      subst hpi
      refine ⟨by simp, ?_, ?_⟩
      · intro x hx
        obtain ⟨i, _, rfl⟩ := List.mem_map.mp hx
        exact div_nonneg (warmU_nonneg n s lam mu hlam.le hmu i)
          (warmS_pos n s lam mu hlam.le hmu).le
      · rw [list_range_map_sum, ← Finset.sum_div]
        exact div_self (warmS_pos n s lam mu hlam.le hmu).ne'

/-- C3: for every valid input, whenever the availability computation of either
standby mode returns, the returned availability equals the sum of the
normalized stationary-vector entries at indices k through n inclusive. -/
theorem C3_availability (n k s : ℕ) (lam mu : ℚ) (hk : 1 ≤ k) (hkn : k ≤ n)
    (hs : 1 ≤ s) (hlam : 0 < lam) (hmu : 0 < mu) (w : Bool) (pi : List ℚ)
    (a : ℚ)
    (h : (if w then k_out_of_n_availability_warm n k s lam mu
          else k_out_of_n_availability_cold n k s lam mu) = some (pi, a)) :
    a = ∑ i ∈ Finset.Icc k n, pi.getD i 0 := by
  cases w with
  | false =>
    have h2 : k_out_of_n_availability_cold n k s lam mu = some (pi, a) := h
    rw [cold_none n k s lam mu (hk.trans hkn)] at h2
    exact absurd h2 (by simp)
  | true =>
    have h2 : k_out_of_n_availability_warm n k s lam mu = some (pi, a) := h
    rw [warm_eq n k s lam mu hlam.le hmu hkn] at h2
    have hpa := Option.some.inj h2
    have hpi : pi = (List.range (n + 1)).map
        fun i => warmU n s lam mu i / warmS n s lam mu :=
      (Prod.mk.injEq _ _ _ _ ▸ hpa).1.symm
    have ha : a = warmAvailVal n k s lam mu :=
      (Prod.mk.injEq _ _ _ _ ▸ hpa).2.symm
    subst hpi
    rw [ha]
    have hgd : ∀ i ∈ Finset.Icc k n,
        ((List.range (n + 1)).map fun j =>
          warmU n s lam mu j / warmS n s lam mu).getD i 0
        = warmU n s lam mu i / warmS n s lam mu := by
      intro i hi
      have := Finset.mem_Icc.mp hi
      exact warm_getD n s lam mu i (by omega)
    rw [Finset.sum_congr rfl hgd, ← Finset.sum_div]
    rfl

/-- C4: the claim says that for n = 1, k = 1 the cold computation uses
death_rate(1) = k*mu and performs no division by zero; in fact the code
computes the death rate for the transition out of state 1 at loop index
i = 0 as 0*mu = 0 and raises ZeroDivisionError (returns nothing), while the
repository's own visualizer labels that same edge with rate 1*mu. -/
theorem C4_cold_divzero :
    coldDeathRate 1 (1/10) 0 = 0 ∧
    k_out_of_n_availability_cold 1 1 1 (1/2) (1/10) = none ∧
    vizDeathRate 1 (1/10) false 1 = 1 * (1/10) := by
  refine ⟨coldDeathRate_zero 1 (1/10), cold_none 1 1 1 (1/2) (1/10) le_rfl, ?_⟩
  norm_num [vizDeathRate]

/-- C5: whenever the underlying availability computation returns availability
a, total_cost returns exactly n*componentCost + s*repairmanCost +
(1 - a)*downtimeCost. -/
theorem C5_total_cost (n k s : ℕ) (lam mu cc rc dc : ℚ) (w : Bool)
    (pi : List ℚ) (a : ℚ)
    (h : (if w then k_out_of_n_availability_warm n k s lam mu
          else k_out_of_n_availability_cold n k s lam mu) = some (pi, a)) :
    total_cost n k s lam mu w cc rc dc =
      some ((n : ℚ) * cc + (s : ℚ) * rc + (1 - a) * dc) := by
  unfold total_cost
  rw [h]
  rfl

/-- C7: for k = 1 (any standby mode, rates, costs) the inner search range
[1, n-1] is empty at n = k = 1, no cost is ever evaluated, and optimize
returns (None, None, infinity). -/
theorem C7_k_eq_one (lam mu cc rc dc : ℚ) (w : Bool) :
    List.range' 1 (1 - 1) = [] ∧
    optimizeEvals 1 lam mu w cc rc dc = [] ∧
    optimize_system 1 lam mu w cc rc dc = some (none, none, none) := by
  exact ⟨rfl, rfl, rfl⟩

/-- C10 counterexample: for k = 1001 ≥ 2 the cold-mode optimizer does return
a value, namely (None, None, infinity), because the n ≤ 1000 ceiling prevents
the loop body (and hence the crashing cold availability computation) from
ever running. -/
theorem C10_counterexample :
    optimize_system 1001 1 1 false 1 1 1 = some (none, none, none) ∧
    optimize_system 1001 1 1 false 1 1 1 ≠ none := by
  refine ⟨rfl, fun hcontra => ?_⟩
  rw [show optimize_system 1001 1 1 false 1 1 1 = some (none, none, none)
    from rfl] at hcontra
  exact Option.noConfusion hcontra

/-- C10 amended: for every valid input the cold death-rate formula evaluates
to 0*mu = 0 at loop index 0, so the cold availability computation fails with
a division by zero on its first recurrence step and cold-mode total_cost
never returns; cold-mode optimize never returns for any k with
2 ≤ k ≤ 1000 (for k > 1000 the ceiling makes it return (None, None, inf)). -/
theorem C10_amended (n k s : ℕ) (lam mu cc rc dc : ℚ) (hk : 1 ≤ k)
    (hkn : k ≤ n) (hs : 1 ≤ s) (hlam : 0 < lam) (hmu : 0 < mu) :
    coldDeathRate k mu 0 = 0 ∧
    k_out_of_n_availability_cold n k s lam mu = none ∧
    total_cost n k s lam mu false cc rc dc = none ∧
    ∀ k2 : ℕ, 2 ≤ k2 → k2 ≤ 1000 →
      optimize_system k2 lam mu false cc rc dc = none := by
  refine ⟨coldDeathRate_zero k mu, cold_none n k s lam mu (hk.trans hkn),
    total_cost_cold_none n k s lam mu cc rc dc (hk.trans hkn), ?_⟩
  intro k2 h2 h1000
  exact optimizeLoop_cold_none k2 lam mu cc rc dc 1002 k2 (none, none, none)
    (by omega) h2 h1000

/-- Witness for C1 at n = 2, k = 1, s = 1, lam = 1, mu = 1, warm standby,
where the code returns pi = [2/5, 2/5, 1/5] and availability 3/5. -/
theorem C1_witness :
    ∃ unnorm : ℕ → ℚ, unnorm 0 = 1 ∧
      (∀ i, i < 2 → unnorm (i + 1) = unnorm i *
        ((((min (2 - i) 1 : ℕ) : ℚ) * 1) /
          (if true then ((i : ℚ) + 1) * 1
           else if i < 1 then (i : ℚ) * 1 else ((1 : ℕ) : ℚ) * 1))) ∧
      ([2/5, 2/5, 1/5] : List ℚ) = ((List.range (2 + 1)).map unnorm).map
        (fun x => x / ((List.range (2 + 1)).map unnorm).sum) :=
  C1_recurrence 2 1 1 1 1 (by norm_num) (by norm_num) (by norm_num) (by norm_num)
    true [2/5, 2/5, 1/5] (3/5)
    (by norm_num [k_out_of_n_availability_warm, availabilityCore, piUnnormList,
      piUnnorm, birthRate, warmDeathRate, List.range'])

/-- Witness for the amended C2 at n = 2, k = 1, s = 1, lam = 1, mu = 1. -/
theorem C2_amended_witness :
    (∃ pi a, k_out_of_n_availability_warm 2 1 1 1 1 = some (pi, a)) ∧
    (∀ w : Bool, ∀ pi : List ℚ, ∀ a : ℚ,
      (if w then k_out_of_n_availability_warm 2 1 1 1 1
       else k_out_of_n_availability_cold 2 1 1 1 1) = some (pi, a) →
      pi.length = 2 + 1 ∧ (∀ x ∈ pi, 0 ≤ x) ∧ pi.sum = 1) :=
  C2_amended 2 1 1 1 1 (by norm_num) (by norm_num) (by norm_num) (by norm_num)
    (by norm_num)

/-- Witness for C3 at n = 2, k = 1, s = 1, lam = 1, mu = 1, warm standby:
the returned availability 3/5 is the sum of the entries at indices 1..2. -/
theorem C3_witness :
    (3/5 : ℚ) = ∑ i ∈ Finset.Icc 1 2, ([2/5, 2/5, 1/5] : List ℚ).getD i 0 :=
  C3_availability 2 1 1 1 1 (by norm_num) (by norm_num) (by norm_num)
    (by norm_num) (by norm_num) true [2/5, 2/5, 1/5] (3/5)
    (by norm_num [k_out_of_n_availability_warm, availabilityCore, piUnnormList,
      piUnnorm, birthRate, warmDeathRate, List.range'])

/-- Witness for C5 at n = 2, k = 1, s = 1, lam = 1, mu = 1, warm standby,
unit costs. -/
theorem C5_witness :
    total_cost 2 1 1 1 1 true 1 1 1 =
      some (((2 : ℕ) : ℚ) * 1 + ((1 : ℕ) : ℚ) * 1 + (1 - 3/5) * 1) :=
  C5_total_cost 2 1 1 1 1 1 1 1 true [2/5, 2/5, 1/5] (3/5)
    (by norm_num [k_out_of_n_availability_warm, availabilityCore, piUnnormList,
      piUnnorm, birthRate, warmDeathRate, List.range'])

/-- Witness for the amended C10 at n = 1, k = 1, s = 1, lam = 1, mu = 1,
unit costs. -/
theorem C10_amended_witness :
    coldDeathRate 1 1 0 = 0 ∧
    k_out_of_n_availability_cold 1 1 1 1 1 = none ∧
    total_cost 1 1 1 1 1 false 1 1 1 = none ∧
    ∀ k2 : ℕ, 2 ≤ k2 → k2 ≤ 1000 →
      optimize_system k2 1 1 false 1 1 1 = none :=
  C10_amended 1 1 1 1 1 1 1 1 (by norm_num) (by norm_num) (by norm_num)
    (by norm_num) (by norm_num)

/-- C9: for every fixed valid configuration on which the availability
computation returns, total_cost is strictly increasing in componentCost,
repairmanCost and downtimeCost, each varied independently (the downtime term
uses that availability < 1 on every valid input). -/
theorem C9_cost_strict_mono (n k s : ℕ) (lam mu : ℚ) (hk : 1 ≤ k)
    (hkn : k ≤ n) (hs : 1 ≤ s) (hlam : 0 < lam) (hmu : 0 < mu) (w : Bool)
    (pi : List ℚ) (a : ℚ)
    (h : (if w then k_out_of_n_availability_warm n k s lam mu
          else k_out_of_n_availability_cold n k s lam mu) = some (pi, a)) :
    (∀ cc cc2 rc dc c c2 : ℚ, cc < cc2 →
      total_cost n k s lam mu w cc rc dc = some c →
      total_cost n k s lam mu w cc2 rc dc = some c2 → c < c2) ∧
    (∀ cc rc rc2 dc c c2 : ℚ, rc < rc2 →
      total_cost n k s lam mu w cc rc dc = some c →
      total_cost n k s lam mu w cc rc2 dc = some c2 → c < c2) ∧
    (∀ cc rc dc dc2 c c2 : ℚ, dc < dc2 →
      total_cost n k s lam mu w cc rc dc = some c →
      total_cost n k s lam mu w cc rc dc2 = some c2 → c < c2) := by
  have ha1 : a < 1 := by
    cases w with
    | false =>
      have h2 : k_out_of_n_availability_cold n k s lam mu = some (pi, a) := h
      rw [cold_none n k s lam mu (hk.trans hkn)] at h2
      exact absurd h2 (by simp)
    | true =>
      have h2 : k_out_of_n_availability_warm n k s lam mu = some (pi, a) := h
      rw [warm_eq n k s lam mu hlam.le hmu hkn] at h2
      have ha : a = warmAvailVal n k s lam mu :=
        ((Prod.mk.injEq _ _ _ _ ▸ Option.some.inj h2).2).symm
      rw [ha]
      exact warmAvailVal_lt_one n k s lam mu hlam.le hmu hk hkn
  have hn1 : (1 : ℚ) ≤ (n : ℚ) := by exact_mod_cast Nat.one_le_cast.mpr (hk.trans hkn)
  have hs1 : (1 : ℚ) ≤ (s : ℚ) := by exact_mod_cast Nat.one_le_cast.mpr hs
  refine ⟨?_, ?_, ?_⟩
  · intro cc cc2 rc dc c c2 hlt hc hc2
    rw [total_cost_eq n k s lam mu cc rc dc w pi a h] at hc
    rw [total_cost_eq n k s lam mu cc2 rc dc w pi a h] at hc2
    have e1 := Option.some.inj hc
    have e2 := Option.some.inj hc2
    have hmul : (n : ℚ) * cc < (n : ℚ) * cc2 :=
      mul_lt_mul_of_pos_left hlt (by linarith)
    linarith [e1, e2]
  · intro cc rc rc2 dc c c2 hlt hc hc2
    rw [total_cost_eq n k s lam mu cc rc dc w pi a h] at hc
    rw [total_cost_eq n k s lam mu cc rc2 dc w pi a h] at hc2
    have e1 := Option.some.inj hc
    have e2 := Option.some.inj hc2
    have hmul : (s : ℚ) * rc < (s : ℚ) * rc2 :=
      mul_lt_mul_of_pos_left hlt (by linarith)
    linarith [e1, e2]
  · intro cc rc dc dc2 c c2 hlt hc hc2
    rw [total_cost_eq n k s lam mu cc rc dc w pi a h] at hc
    rw [total_cost_eq n k s lam mu cc rc dc2 w pi a h] at hc2
    have e1 := Option.some.inj hc
    have e2 := Option.some.inj hc2
    have hmul : (1 - a) * dc < (1 - a) * dc2 :=
      mul_lt_mul_of_pos_left hlt (by linarith)
    linarith [e1, e2]

/-- Witness for C9 at n = 2, k = 1, s = 1, lam = 1, mu = 1, warm standby:
each of the three cost parameters increased from 1 to 2 strictly increases
the total cost. -/
theorem C9_witness : (17/5 : ℚ) < 27/5 ∧ (17/5 : ℚ) < 22/5 ∧ (17/5 : ℚ) < 19/5 := by
  have hret : (if true then k_out_of_n_availability_warm 2 1 1 1 1
      else k_out_of_n_availability_cold 2 1 1 1 1)
      = some ([2/5, 2/5, 1/5], 3/5) := by
    norm_num [k_out_of_n_availability_warm, availabilityCore, piUnnormList,
      piUnnorm, birthRate, warmDeathRate, List.range']
  have happ := C9_cost_strict_mono 2 1 1 1 1 (by norm_num) (by norm_num)
    (by norm_num) (by norm_num) (by norm_num) true [2/5, 2/5, 1/5] (3/5) hret
  refine ⟨happ.1 1 2 1 1 (17/5) (27/5) (by norm_num) ?_ ?_,
    happ.2.1 1 1 2 1 (17/5) (22/5) (by norm_num) ?_ ?_,
    happ.2.2 1 1 1 2 (17/5) (19/5) (by norm_num) ?_ ?_⟩ <;>
    norm_num [total_cost, k_out_of_n_availability_warm, availabilityCore,
      piUnnormList, piUnnorm, birthRate, warmDeathRate, List.range']

/-- C8: for fixed valid n, k, lam, mu and repair-crew counts s1 ≤ s2,
whenever the availability computation returns for both, the availability
returned for s2 is at least the availability returned for s1. -/
theorem C8_avail_mono_s (n k s1 s2 : ℕ) (lam mu : ℚ) (hk : 1 ≤ k)
    (hkn : k ≤ n) (hs1 : 1 ≤ s1) (hs12 : s1 ≤ s2) (hlam : 0 < lam)
    (hmu : 0 < mu) (w : Bool) (pi1 pi2 : List ℚ) (a1 a2 : ℚ)
    (h1 : (if w then k_out_of_n_availability_warm n k s1 lam mu
           else k_out_of_n_availability_cold n k s1 lam mu) = some (pi1, a1))
    (h2 : (if w then k_out_of_n_availability_warm n k s2 lam mu
           else k_out_of_n_availability_cold n k s2 lam mu) = some (pi2, a2)) :
    a1 ≤ a2 := by
  cases w with
  | false =>
    have hcold : k_out_of_n_availability_cold n k s1 lam mu = some (pi1, a1) := h1
    rw [cold_none n k s1 lam mu (hk.trans hkn)] at hcold
    exact absurd hcold (by simp)
  | true =>
    have hw1 : k_out_of_n_availability_warm n k s1 lam mu = some (pi1, a1) := h1
    have hw2 : k_out_of_n_availability_warm n k s2 lam mu = some (pi2, a2) := h2
    rw [warm_eq n k s1 lam mu hlam.le hmu hkn] at hw1
    rw [warm_eq n k s2 lam mu hlam.le hmu hkn] at hw2
    have ha1 : a1 = warmAvailVal n k s1 lam mu :=
      ((Prod.mk.injEq _ _ _ _ ▸ Option.some.inj hw1).2).symm
    have ha2 : a2 = warmAvailVal n k s2 lam mu :=
      ((Prod.mk.injEq _ _ _ _ ▸ Option.some.inj hw2).2).symm
    rw [ha1, ha2]
    exact warmAvail_mono_s n k s1 s2 lam mu hk hkn hlam.le hmu hs12

lemma leInf_refl (x : Option ℚ) : leInf x x := by
  cases x with
  | none => trivial
  | some v => exact le_refl v

lemma leInf_none_right (x : Option ℚ) : leInf x none := by
  cases x with
  | none => trivial
  | some v => trivial

lemma leInf_trans (x y z : Option ℚ) (hxy : leInf x y) (hyz : leInf y z) :
    leInf x z := by
  cases z with
  | none => exact leInf_none_right x
  | some c =>
    cases y with
    | none => exact absurd hyz (by simp [leInf])
    | some b =>
      cases x with
      | none => exact absurd hxy (by simp [leInf])
      | some a => exact le_trans (α := ℚ) hxy hyz

lemma leInf_some_right (x : Option ℚ) (c : ℚ) (h : leInf x (some c)) :
    ∃ v, x = some v ∧ v ≤ c := by
  cases x with
  | none => exact absurd h (by simp [leInf])
  | some v => exact ⟨v, rfl, h⟩

lemma ltInf_true_leInf (c : ℚ) (b : Option ℚ) (h : ltInf c b = true) :
    leInf (some c) b := by
  cases b with
  | none => trivial
  | some v => exact le_of_lt (by simpa [ltInf] using h)

lemma ltInf_false_le (c : ℚ) (b : Option ℚ) (h : ¬ ltInf c b = true) :
    ∃ v, b = some v ∧ v ≤ c := by
  cases b with
  | none => exact absurd rfl h
  | some v =>
    refine ⟨v, rfl, ?_⟩
    exact le_of_not_lt (by simpa [ltInf] using h)

lemma ltInfOpt_true_leInf (x y : Option ℚ) (h : ltInfOpt x y = true) :
    leInf x y := by
  cases x with
  | none => exact absurd h (by simp [ltInfOpt])
  | some c =>
    cases y with
    | none => trivial
    | some m => exact le_of_lt (by simpa [ltInfOpt] using h)

lemma total_cost_warm_eq (n k s : ℕ) (lam mu cc rc dc : ℚ) (hlam : 0 ≤ lam)
    (hmu : 0 < mu) (hkn : k ≤ n) :
    total_cost n k s lam mu true cc rc dc
      = some (warmCost n k s lam mu cc rc dc) := by
  have h : (if (true : Bool) then k_out_of_n_availability_warm n k s lam mu
      else k_out_of_n_availability_cold n k s lam mu)
      = k_out_of_n_availability_warm n k s lam mu := rfl
  unfold total_cost
  rw [h, warm_eq n k s lam mu hlam hmu hkn]
  rfl

lemma foldlM_map_eq_foldl (g : ℕ → Option ℚ) (gv : ℕ → ℚ) (l : List ℕ)
    (h : ∀ s ∈ l, g s = some (gv s)) :
    ∀ b : Option ℚ × Option ℕ,
      l.foldlM (fun best s => (g s).map (innerStep best s)) b
        = some (l.foldl (fun best s => innerStep best s (gv s)) b) := by
  induction l with
  | nil => intro b; rfl
  | cons x xs ih =>
    intro b
    rw [List.foldlM_cons, h x (List.mem_cons_self x xs), List.foldl_cons]
    exact ih (fun s hs => h s (List.mem_cons_of_mem x hs)) (innerStep b x (gv x))

lemma innerSearch_warm_eq (n k : ℕ) (lam mu cc rc dc : ℚ) (hlam : 0 ≤ lam)
    (hmu : 0 < mu) (hkn : k ≤ n) :
    innerSearch n k lam mu true cc rc dc
      = some (innerFoldWarm n k lam mu cc rc dc) := by
  unfold innerSearch innerFoldWarm
  exact foldlM_map_eq_foldl _ _ _
    (fun s _ => total_cost_warm_eq n k s lam mu cc rc dc hlam hmu hkn) _

lemma innerFold_le_start (gv : ℕ → ℚ) (l : List ℕ) :
    ∀ b : Option ℚ × Option ℕ,
      leInf ((l.foldl (fun b s => innerStep b s (gv s)) b).1) b.1 := by
  induction l with
  | nil => intro b; exact leInf_refl b.1
  | cons x xs ih =>
    intro b
    rw [List.foldl_cons]
    refine leInf_trans _ _ _ (ih (innerStep b x (gv x))) ?_
    unfold innerStep
    by_cases hlt : ltInf (gv x) b.1 = true
    · rw [if_pos hlt]
      exact ltInf_true_leInf (gv x) b.1 hlt
    · rw [if_neg hlt]
      exact leInf_refl b.1

lemma innerFold_le_elem (gv : ℕ → ℚ) (l : List ℕ) :
    ∀ b : Option ℚ × Option ℕ, ∀ s ∈ l,
      leInf ((l.foldl (fun b s => innerStep b s (gv s)) b).1) (some (gv s)) := by
  induction l with
  | nil => intro b s hs; exact absurd hs (List.not_mem_nil s)
  | cons x xs ih =>
    intro b s hs
    rw [List.foldl_cons]
    rcases List.mem_cons.mp hs with rfl | hxs
    · refine leInf_trans _ _ _ (innerFold_le_start gv xs (innerStep b s (gv s))) ?_
      unfold innerStep
      by_cases hlt : ltInf (gv s) b.1 = true
      · rw [if_pos hlt]
        exact le_refl (gv s)
      · rw [if_neg hlt]
        obtain ⟨v, hv, hvle⟩ := ltInf_false_le (gv s) b.1 hlt
        rw [hv]
        exact hvle
    · exact ih (innerStep b x (gv x)) s hxs

lemma innerFold_isSome (gv : ℕ → ℚ) (l : List ℕ) :
    ∀ b : Option ℚ × Option ℕ, b.1.isSome →
      ((l.foldl (fun b s => innerStep b s (gv s)) b).1).isSome := by
  induction l with
  | nil => intro b hb; exact hb
  | cons x xs ih =>
    intro b hb
    rw [List.foldl_cons]
    refine ih (innerStep b x (gv x)) ?_
    unfold innerStep
    by_cases hlt : ltInf (gv x) b.1 = true
    · rw [if_pos hlt]; rfl
    · rw [if_neg hlt]; exact hb

lemma innerFold_some_of_ne_nil (gv : ℕ → ℚ) (l : List ℕ) (hl : l ≠ []) :
    ((l.foldl (fun b s => innerStep b s (gv s)) ((none, none) :
        Option ℚ × Option ℕ)).1).isSome := by
  cases l with
  | nil => exact absurd rfl hl
  | cons x xs =>
    rw [List.foldl_cons]
    refine innerFold_isSome gv xs _ ?_
    unfold innerStep
    have hcond : ltInf (gv x) ((none, none) : Option ℚ × Option ℕ).1 = true := rfl
    rw [if_pos hcond]
    rfl

lemma optimizeLoop_warm_some (k : ℕ) (lam mu cc rc dc : ℚ) (hlam : 0 ≤ lam)
    (hmu : 0 < mu) :
    ∀ fuel n (st : Option ℕ × Option ℕ × Option ℚ), k ≤ n →
      ∃ r, optimizeLoop k lam mu true cc rc dc fuel n st = some r := by
  intro fuel
  induction fuel with
  | zero => intro n st _; exact ⟨st, rfl⟩
  | succ fuel ih =>
    intro n st hkn
    rw [optimizeLoop]
    by_cases hn : n ≤ 1000
    · rw [if_pos hn, innerSearch_warm_eq n k lam mu cc rc dc hlam hmu hkn]
      simp only [Option.some_bind]
      by_cases hlt : ltInfOpt (innerFoldWarm n k lam mu cc rc dc).1 st.2.2 = true
      · rw [if_pos hlt]
        exact ih (n + 1) _ (by omega)
      · rw [if_neg hlt]
        exact ⟨st, rfl⟩
    · rw [if_neg hn]
      exact ⟨st, rfl⟩

lemma optimizeLoop_minCost_le (k : ℕ) (lam mu cc rc dc : ℚ) (w : Bool) :
    ∀ fuel n (st r : Option ℕ × Option ℕ × Option ℚ),
      optimizeLoop k lam mu w cc rc dc fuel n st = some r →
      leInf r.2.2 st.2.2 := by
  intro fuel
  induction fuel with
  | zero =>
    intro n st r h
    rw [optimizeLoop] at h
    cases Option.some.inj h
    exact leInf_refl _
  | succ fuel ih =>
    intro n st r h
    rw [optimizeLoop] at h
    by_cases hn : n ≤ 1000
    · rw [if_pos hn] at h
      cases hc : innerSearch n k lam mu w cc rc dc with
      | none =>
        rw [hc] at h
        exact absurd h (by simp)
      | some cur =>
        rw [hc] at h
        simp only [Option.some_bind] at h
        by_cases hlt : ltInfOpt cur.1 st.2.2 = true
        · rw [if_pos hlt] at h
          exact leInf_trans _ _ _ (ih (n + 1) _ r h)
            (ltInfOpt_true_leInf cur.1 st.2.2 hlt)
        · rw [if_neg hlt] at h
          cases Option.some.inj h
          exact leInf_refl _
    · rw [if_neg hn] at h
      cases Option.some.inj h
      exact leInf_refl _

lemma optimizeLoop_best_bounds (k : ℕ) (lam mu cc rc dc : ℚ) (w : Bool)
    (lo : ℕ) :
    ∀ fuel n (st r : Option ℕ × Option ℕ × Option ℚ),
      optimizeLoop k lam mu w cc rc dc fuel n st = some r →
      lo ≤ n → (∀ m, st.1 = some m → lo ≤ m ∧ m ≤ 1000) →
      ∀ m, r.1 = some m → lo ≤ m ∧ m ≤ 1000 := by
  intro fuel
  induction fuel with
  | zero =>
    intro n st r h _ hst
    rw [optimizeLoop] at h
    cases Option.some.inj h
    exact hst
  | succ fuel ih =>
    intro n st r h hlo hst
    rw [optimizeLoop] at h
    by_cases hn : n ≤ 1000
    · rw [if_pos hn] at h
      cases hc : innerSearch n k lam mu w cc rc dc with
      | none =>
        rw [hc] at h
        exact absurd h (by simp)
      | some cur =>
        rw [hc] at h
        simp only [Option.some_bind] at h
        by_cases hlt : ltInfOpt cur.1 st.2.2 = true
        · rw [if_pos hlt] at h
          refine ih (n + 1) _ r h (by omega) ?_
          intro m hm
          have : n = m := Option.some.inj hm
          omega
        · rw [if_neg hlt] at h
          cases Option.some.inj h
          exact hst
    · rw [if_neg hn] at h
      cases Option.some.inj h
      exact hst

lemma optimizeLoop_best_isSome (k : ℕ) (lam mu cc rc dc : ℚ) (w : Bool) :
    ∀ fuel n (st r : Option ℕ × Option ℕ × Option ℚ),
      optimizeLoop k lam mu w cc rc dc fuel n st = some r →
      st.1.isSome → r.1.isSome := by
  intro fuel
  induction fuel with
  | zero =>
    intro n st r h hst
    rw [optimizeLoop] at h
    cases Option.some.inj h
    exact hst
  | succ fuel ih =>
    intro n st r h hst
    rw [optimizeLoop] at h
    by_cases hn : n ≤ 1000
    · rw [if_pos hn] at h
      cases hc : innerSearch n k lam mu w cc rc dc with
      | none =>
        rw [hc] at h
        exact absurd h (by simp)
      | some cur =>
        rw [hc] at h
        simp only [Option.some_bind] at h
        by_cases hlt : ltInfOpt cur.1 st.2.2 = true
        · rw [if_pos hlt] at h
          exact ih (n + 1) _ r h rfl
        · rw [if_neg hlt] at h
          cases Option.some.inj h
          exact hst
    · rw [if_neg hn] at h
      cases Option.some.inj h
      exact hst

lemma optimizeEvalsLoop_le_1000 (k : ℕ) (lam mu cc rc dc : ℚ) (w : Bool) :
    ∀ fuel n (mc : Option ℚ) (p : ℕ × ℕ),
      p ∈ optimizeEvalsLoop k lam mu w cc rc dc fuel n mc → p.1 ≤ 1000 := by
  intro fuel
  induction fuel with
  | zero =>
    intro n mc p hp
    rw [optimizeEvalsLoop] at hp
    exact absurd hp (List.not_mem_nil p)
  | succ fuel ih =>
    intro n mc p hp
    rw [optimizeEvalsLoop] at hp
    by_cases hn : n ≤ 1000
    · rw [if_pos hn] at hp
      rcases List.mem_append.mp hp with hleft | hright
      · obtain ⟨s, _, rfl⟩ := List.mem_map.mp hleft
        exact hn
      · split at hright
        · exact absurd hright (List.not_mem_nil p)
        · split at hright
          · exact ih (n + 1) _ p hright
          · exact absurd hright (List.not_mem_nil p)
    · rw [if_neg hn] at hp
      exact absurd hp (List.not_mem_nil p)

/-- Witness for C8 at n = 2, k = 1, lam = 1, mu = 1, warm standby, s1 = 1
(availability 3/5) and s2 = 2 (availability 3/4). -/
theorem C8_witness : (3/5 : ℚ) ≤ 3/4 :=
  C8_avail_mono_s 2 1 1 2 1 1 (by norm_num) (by norm_num) (by norm_num)
    (by norm_num) (by norm_num) (by norm_num) true [2/5, 2/5, 1/5]
    [1/4, 1/2, 1/4] (3/5) (3/4)
    (by norm_num [k_out_of_n_availability_warm, availabilityCore, piUnnormList,
      piUnnorm, birthRate, warmDeathRate, List.range'])
    (by norm_num [k_out_of_n_availability_warm, availabilityCore, piUnnormList,
      piUnnorm, birthRate, warmDeathRate, List.range'])

/-- C6 counterexample: for the warm-standby input k = 1001 (which satisfies
k ≥ 2 and has positive rates and costs) the optimizer returns
(None, None, infinity): there is no returned bestN at all, so no bestN with
k ≤ bestN ≤ 1000, and minCost is infinite rather than bounded by any cost at
n = k. -/
theorem C6_counterexample :
    optimize_system 1001 1 1 true 1 1 1 = some (none, none, none) ∧
    ∀ bn bs mc, optimize_system 1001 1 1 true 1 1 1 = some (bn, bs, mc) →
      bn = none ∧ mc = none := by
  refine ⟨rfl, ?_⟩
  intro bn bs mc h
  rw [show optimize_system 1001 1 1 true 1 1 1 = some (none, none, none)
    from rfl] at h
  have h2 := Option.some.inj h
  exact ⟨(Prod.ext_iff.mp h2).1.symm, (Prod.ext_iff.mp (Prod.ext_iff.mp h2).2).2.symm⟩

/-- C6 amended: for every warm-standby input with 2 ≤ k ≤ 1000, positive
rates and positive costs, optimize terminates with a defined best
configuration, k ≤ bestN ≤ 1000, the search never evaluates any n > 1000,
and the returned minCost is at most the cost of every configuration
(n = k, s) with s in [1, k-1]. -/
theorem C6_amended (k : ℕ) (lam mu cc rc dc : ℚ) (hk : 2 ≤ k)
    (hk1000 : k ≤ 1000) (hlam : 0 < lam) (hmu : 0 < mu) (hcc : 0 < cc)
    (hrc : 0 < rc) (hdc : 0 < dc) :
    ∃ bn : ℕ, ∃ bs : Option ℕ, ∃ mc : ℚ,
      optimize_system k lam mu true cc rc dc = some (some bn, bs, some mc) ∧
      k ≤ bn ∧ bn ≤ 1000 ∧
      (∀ p ∈ optimizeEvals k lam mu true cc rc dc, p.1 ≤ 1000) ∧
      ∀ s : ℕ, 1 ≤ s → s ≤ k - 1 →
        ∃ c, total_cost k k s lam mu true cc rc dc = some c ∧ mc ≤ c := by
  have hne : List.range' 1 (k - 1) ≠ [] := by
    intro hnil
    have hlen := congrArg List.length hnil
    simp at hlen
    omega
  have hsome1 : ((innerFoldWarm k k lam mu cc rc dc).1).isSome :=
    innerFold_some_of_ne_nil (fun s => warmCost k k s lam mu cc rc dc)
      (List.range' 1 (k - 1)) hne
  obtain ⟨m1, hm1⟩ := Option.isSome_iff_exists.mp hsome1
  have hfirst : optimize_system k lam mu true cc rc dc
      = optimizeLoop k lam mu true cc rc dc 1001 (k + 1)
        (some k, (innerFoldWarm k k lam mu cc rc dc).2, some m1) := by
    rw [optimize_system, show (1002 : ℕ) = 1001 + 1 from rfl, optimizeLoop,
      if_pos hk1000, innerSearch_warm_eq k k lam mu cc rc dc hlam.le hmu le_rfl]
    simp only [Option.some_bind]
    have hcond : ltInfOpt (innerFoldWarm k k lam mu cc rc dc).1
        ((none, none, (none : Option ℚ)) :
          Option ℕ × Option ℕ × Option ℚ).2.2 = true := by
      rw [hm1]; rfl
    rw [if_pos hcond, hm1]
  obtain ⟨r, hr⟩ := optimizeLoop_warm_some k lam mu cc rc dc hlam.le hmu 1001
    (k + 1) (some k, (innerFoldWarm k k lam mu cc rc dc).2, some m1) (by omega)
  have hbs : r.1.isSome := optimizeLoop_best_isSome k lam mu cc rc dc true 1001
    (k + 1) _ r hr rfl
  obtain ⟨bn, hbn⟩ := Option.isSome_iff_exists.mp hbs
  have hst : ∀ m, ((some k, (innerFoldWarm k k lam mu cc rc dc).2, some m1) :
      Option ℕ × Option ℕ × Option ℚ).1 = some m → k ≤ m ∧ m ≤ 1000 := by
    intro m hm
    have := Option.some.inj hm
    omega
  have hbounds := optimizeLoop_best_bounds k lam mu cc rc dc true k 1001 (k + 1)
    _ r hr (by omega) hst bn hbn
  have hmin := optimizeLoop_minCost_le k lam mu cc rc dc true 1001 (k + 1) _ r hr
  obtain ⟨mc, hmc, hmcle⟩ := leInf_some_right _ _ hmin
  refine ⟨bn, r.2.1, mc, ?_, hbounds.1, hbounds.2, ?_, ?_⟩
  · rw [hfirst, hr]
    obtain ⟨r1, r2, r3⟩ := r
    have hr1 : r1 = some bn := hbn
    have hr3 : r3 = some mc := hmc
    rw [hr1, hr3]
  · intro p hp
    exact optimizeEvalsLoop_le_1000 k lam mu cc rc dc true 1002 k none p hp
  · intro s hs1 hs2
    refine ⟨warmCost k k s lam mu cc rc dc,
      total_cost_warm_eq k k s lam mu cc rc dc hlam.le hmu le_rfl, ?_⟩
    have hmem : s ∈ List.range' 1 (k - 1) :=
      List.mem_range'_1.mpr ⟨hs1, by omega⟩
    have hle : leInf ((innerFoldWarm k k lam mu cc rc dc).1)
        (some (warmCost k k s lam mu cc rc dc)) :=
      innerFold_le_elem (fun s => warmCost k k s lam mu cc rc dc)
        (List.range' 1 (k - 1)) (none, none) s hmem
    rw [hm1] at hle
    exact le_trans hmcle hle

/-- Witness for the amended C6 at k = 2, lam = 1, mu = 1, unit costs (the
optimizer returns bestN = 2, bestS = 1, minCost = 19/5). -/
theorem C6_amended_witness :
    ∃ bn : ℕ, ∃ bs : Option ℕ, ∃ mc : ℚ,
      optimize_system 2 1 1 true 1 1 1 = some (some bn, bs, some mc) ∧
      2 ≤ bn ∧ bn ≤ 1000 ∧
      (∀ p ∈ optimizeEvals 2 1 1 true 1 1 1, p.1 ≤ 1000) ∧
      ∀ s : ℕ, 1 ≤ s → s ≤ 2 - 1 →
        ∃ c, total_cost 2 2 s 1 1 true 1 1 1 = some c ∧ mc ≤ c :=
  C6_amended 2 1 1 1 1 1 (by norm_num) (by norm_num) (by norm_num)
    (by norm_num) (by norm_num) (by norm_num) (by norm_num)

end Maintenance
